import Mathlib

/-!
# Verification of the FIRDS download pipeline (`src/Utils.py`, `src/main.py`)

A shallow embedding of the pipeline in `src/Utils.py` / `src/main.py`:

* `get_latest_file` — registry selection over the feed document (`Utils.py` 17-60);
* `get_data` — archive fetch, integrity test and record extraction (`Utils.py` 63-110);
* `write_to_csv` — CSV serialization via `csv.DictWriter` (`Utils.py` 113-146);
* `put_first_firds_file_in_s3` — the pipeline driver (`main.py` 23-37).

External collaborators (HTTP transport, the XML parser of the standard library,
the S3 sink) are modelled at their interface: transport calls are oracles
indexed by attempt number, XML fragment parsing is an abstract
well-formed/malformed outcome, and I/O is recorded as an event trace.
Machine data stays symbolic: strings are Lean `String`s, dates are `Nat`
(the date tokens are decimal digit strings, so Python `int` never sees a sign).
-/

namespace Firds

/-- Errors that escape the pipeline's own handlers and abort the run
(they are caught only by the bare `except:` in `main.py`, which logs and
ends the run). `malformedEntry` stands for the `AttributeError`/`ValueError`
raised in `get_latest_file` when a filename does not match the
`DLTINS_(.*?)_.*?\.zip` grammar; `parseError` for `xml.etree` failing on a
record fragment; `attributeError` for `None.text` when a target path is not
found in a fragment; `nameError` for `file.filename` when the archive has
no entries. -/
inductive PyErr where
  | malformedEntry
  | parseError
  | attributeError
  | nameError
deriving DecidableEq, Repr

/-- One `<doc>` element of the feed document, reduced to the two named
string fields `get_latest_file` reads (`Utils.py` 46-57). -/
structure Doc where
  file_name : String
  download_link : String
deriving DecidableEq, Repr

/-- `re.match` of the literal leading `DLTINS_` of the pattern
`DLTINS_(.*?)_.*?\.zip` (`Utils.py` 41): the anchored match consumes the
seven literal characters or fails. -/
def dltinsRest : List Char → Option (List Char)
  | 'D' :: 'L' :: 'T' :: 'I' :: 'N' :: 'S' :: '_' :: rest => some rest
  | _ => none

/-- The tail `.*?\.zip` of the pattern: true iff a literal `.zip` occurs
ahead with no newline before it (`.` does not match a newline under the
default flags). -/
def hasDotZipAhead : List Char → Bool
  | '.' :: 'z' :: 'i' :: 'p' :: _ => true
  | '\n' :: _ => false
  | _ :: rest => hasDotZipAhead rest
  | [] => false

/-- The non-greedy group `(.*?)` followed by `_.*?\.zip`: the group is the
shortest newline-free run of characters up to an underscore behind which
`.*?\.zip` can still match; `none` when no such split exists. -/
def findGroup : List Char → Option (List Char)
  | [] => none
  | c :: rest =>
    if c = '_' && hasDotZipAhead rest then some []
    else if c = '\n' then none
    else (findGroup rest).map (fun g => c :: g)

/-- Python `int()` applied to the matched date group (`Utils.py` 53),
modelled on the decimal digit strings the `DLTINS` filename grammar
produces: a nonempty all-digit group parses to its value, anything else
raises `ValueError` (here `none`). -/
def pyInt : List Char → Option Nat :=
  fun cs => match cs with
  | [] => none
  | _ => go cs 0
where
  go : List Char → Nat → Option Nat
  | [], acc => some acc
  | c :: rest, acc => if c.isDigit then go rest (10 * acc + (c.toNat - 48)) else none

/-- `int(re.match(r"DLTINS_(.*?)_.*?\.zip", file_name).group(1))`
(`Utils.py` 52-53): `none` when the regex does not match (the subsequent
`.group` raises `AttributeError`) or the group is not a number
(`int` raises `ValueError`). -/
def parseFileDate (s : String) : Option Nat :=
  (dltinsRest s.data).bind fun rest => (findGroup rest).bind pyInt

/-- `date_int < min_date` where `min_date` starts at `float('inf')`
(`Utils.py` 42, 56): `none` plays infinity. -/
def ltInf (n : Nat) : Option Nat → Bool
  | none => true
  | some m => n < m

/-- The selection loop of `get_latest_file` (`Utils.py` 46-60): walk the
`doc` elements in document order, keeping the smallest date seen and its
`download_link`; a filename that fails the grammar raises out of the loop. -/
def selectLoop : List Doc → Option Nat → Option String → Except PyErr (Option String)
  | [], _, target => .ok target
  | d :: docs, minDate, target =>
    match parseFileDate d.file_name with
    | none => .error .malformedEntry
    | some dateInt =>
      if ltInf dateInt minDate then selectLoop docs (some dateInt) (some d.download_link)
      else selectLoop docs minDate target

/-- `get_latest_file`'s pure selection over an already-fetched feed
document (`Utils.py` 38-60): `min_date = inf`, `target = None`, then the
loop. -/
def selectLatest (docs : List Doc) : Except PyErr (Option String) :=
  selectLoop docs none none

/-- The first entry whose date token is the numeric minimum.  Written from
the spec's words ("the entry whose parsed date is the numeric minimum
across all entries; ties resolve to the first entry encountered in
document order"): the seed `b` is the entry currently first in document
order and it beats every later candidate of equal date. -/
def specFirstMin (b : Nat × String) : List (Nat × String) → Nat × String
  | [] => b
  | p :: rest =>
    let m := specFirstMin p rest
    if b.1 ≤ m.1 then b else m

/-- The (date token, download link) view of a feed entry; the date is
meaningful whenever `parseFileDate` succeeds on the entry. -/
def toPair (d : Doc) : Nat × String :=
  ((parseFileDate d.file_name).getD 0, d.download_link)

/-! ## Record extraction (`get_data`, `Utils.py` 97-110) -/

/-- A parsed record fragment, modelling the `xml.etree` element tree built
from one `<FinInstrm>...</FinInstrm>` fragment at its interface: the
association of element paths (as used by `tree.find`) to the element's
`.text`, which is `none` for an empty element.  `lookup` of an absent path
plays `find` returning `None`. -/
abbrev Fragment : Type := List (String × Option String)

/-- One fragment of the `re.findall(r"<FinInstrm>.*?</FinInstrm>", xml)`
list (`Utils.py` 101): the fragment text either parses into an element
tree (`wellFormed`) or makes `ElementTree.parse` raise (`malformed`).  The
external XML parser is modelled at this interface. -/
inductive RawFragment where
  | wellFormed (f : Fragment)
  | malformed
deriving DecidableEq

/-- One entry of `zf.filelist` (`Utils.py` 99-101): its filename and the
record fragments found in its decoded text by the boundary-marker scan. -/
structure Entry where
  filename : String
  fragments : List RawFragment
deriving DecidableEq

/-- A field mapping / CSV row dict: output column name to extracted value
(`Utils.py` 104-108). -/
abbrev Mapping : Type := List (String × Option String)

/-- `tree.find(element).text` for one target element (`Utils.py` 105):
`find` returning `None` makes the attribute access raise
`AttributeError`; a found element contributes its text (possibly `None`
for an empty element). -/
def projectField (f : Fragment) (element : String) : Except PyErr (Option String) :=
  match List.lookup element f with
  | none => .error .attributeError
  | some t => .ok t

/-- The dict comprehension `{alias: tree.find(element).text for alias,
element in TARGET_ELEMENTS.items()}` (`Utils.py` 104-108) over the
configured target-element list `te`. -/
def projectFragment (te : List (String × String)) (f : Fragment) : Except PyErr Mapping :=
  match te with
  | [] => .ok []
  | (colName, element) :: rest =>
    match projectField f element with
    | .error e => .error e
    | .ok v =>
      match projectFragment rest f with
      | .error e => .error e
      | .ok m => .ok ((colName, v) :: m)

/-- The body of `while records:` (`Utils.py` 102-108) after the reversal
performed by `records.pop()`: `pop()` removes the LAST element, so the
loop consumes the fragment list back-to-front; this walks the already
reversed list front-to-back.  A malformed fragment makes
`ElementTree.parse` raise; a missing target path makes the projection
raise; either aborts the loop (there is no handler around it). -/
def popParseLoop (te : List (String × String)) :
    List RawFragment → List Mapping → Except PyErr (List Mapping)
  | [], out => .ok out
  | .malformed :: _, _ => .error .parseError
  | .wellFormed f :: rest, out =>
    match projectFragment te f with
    | .error e => .error e
    | .ok m => popParseLoop te rest (out ++ [m])

/-- `records = re.findall(...); while records: ...` for one archive entry
(`Utils.py` 101-108): the fragments are consumed in reverse order via
`records.pop()`. -/
def processEntry (te : List (String × String)) (e : Entry) (out : List Mapping) :
    Except PyErr (List Mapping) :=
  popParseLoop te e.fragments.reverse out

/-- The `for file in zf.filelist:` loop plus the final
`return output, file.filename` (`Utils.py` 97-110).  `lastName` tracks the
loop variable `file`: it is unbound before the first iteration, so
`file.filename` after an empty loop raises `NameError`. -/
def entriesLoop (te : List (String × String)) :
    List Entry → List Mapping → Option String → Except PyErr (List Mapping × String)
  | [], _, none => .error .nameError
  | [], out, some fn => .ok (out, fn)
  | e :: rest, out, _ =>
    match processEntry te e out with
    | .error err => .error err
    | .ok out2 => entriesLoop te rest out2 (some e.filename)

/-- The extraction phase of `get_data` (`Utils.py` 97-110): all mappings
accumulated across entries, paired with the filename of the last entry
processed. -/
def extractData (te : List (String × String)) (entries : List Entry) :
    Except PyErr (List Mapping × String) :=
  entriesLoop te entries [] none

/-! ## CSV serialization (`write_to_csv`, `Utils.py` 113-146)

`csv.DictWriter` over the default `excel` dialect: delimiter `,`,
quote character `"`, doubled quotes, line terminator CR LF, minimal
quoting. -/

/-- The cells `DictWriter` writes for one row dict: each field name picks
`rowdict.get(key, restval)` with `restval = None`, and `None` is written
as the empty string. -/
def rowCells (fieldnames : List String) (m : Mapping) : List String :=
  fieldnames.map (fun k =>
    match List.lookup k m with
    | none => ""
    | some none => ""
    | some (some s) => s)

/-- `csv.DictWriter.writerow(rowdict)` (`Utils.py` 129-138): a key of the
dict outside the configured field names raises `ValueError`
(`extrasaction` defaults to `raise`); otherwise the row's cells are
written. -/
def dictWriterRow (fieldnames : List String) (m : Mapping) : Except Unit (List String) :=
  if m.any (fun kv => !(fieldnames.contains kv.1)) then .error ()
  else .ok (rowCells fieldnames m)

/-- `while output: row = output.pop(); writer.writerow(row)` with the
per-row `except` (`Utils.py` 135-142), after the reversal performed by
`output.pop()`: this walks the already reversed list front-to-back; a row
that raises `ValueError` is logged and skipped. -/
def writeRowsRev (fieldnames : List String) : List Mapping → List (List String)
  | [] => []
  | m :: rest =>
    match dictWriterRow fieldnames m with
    | .ok cells => cells :: writeRowsRev fieldnames rest
    | .error _ => writeRowsRev fieldnames rest

/-- The full row list produced by `write_to_csv`: the header row written
by `writeheader()` (the field names themselves, `Utils.py` 133), then one
row per surviving mapping, popped from the end of `output`. -/
def csvRows (te : List (String × String)) (output : List Mapping) : List (List String) :=
  te.map Prod.fst :: writeRowsRev (te.map Prod.fst) output.reverse

/-- A character forcing minimal quoting in the `excel` dialect: the
delimiter, the quote character, or a character of the line terminator. -/
def specialChar (c : Char) : Bool :=
  c = ',' || c = '"' || c = '\r' || c = '\n'

/-- Doubling of quote characters inside a quoted field
(`doublequote = True`). -/
def escapeQuotes : List Char → List Char
  | [] => []
  | c :: cs => if c = '"' then '"' :: '"' :: escapeQuotes cs else c :: escapeQuotes cs

/-- One field under minimal quoting: quoted iff it holds a special
character, or it is the empty lone field of a record (the writer quotes a
single empty field so the record is not an empty line). -/
def renderField (single : Bool) (f : List Char) : List Char :=
  if f.any specialChar || (single && f.isEmpty) then '"' :: (escapeQuotes f ++ ['"'])
  else f

/-- The delimiter-joined fields of a record with two or more fields. -/
def renderRowBody : List (List Char) → List Char
  | [] => []
  | [f] => renderField false f
  | f :: fs => renderField false f ++ ',' :: renderRowBody fs

/-- One written record: joined fields plus the CR LF terminator. -/
def renderRow (row : List (List Char)) : List Char :=
  match row with
  | [f] => renderField true f ++ ['\r', '\n']
  | _ => renderRowBody row ++ ['\r', '\n']

/-- The text `write_to_csv` leaves in its `StringIO`. -/
def renderCsv (rows : List (List String)) : List Char :=
  (rows.map (fun r => renderRow (r.map String.data))).flatten

/-- `write_to_csv` (`Utils.py` 113-146) as a function of the list it is
handed: the CSV text it builds, paired with the final state of the
argument list, which the `pop()` loop leaves empty. -/
def write_to_csv (te : List (String × String)) (output : List Mapping) :
    List Char × List Mapping :=
  (renderCsv (csvRows te output), [])

/-! ## CSV reading (the spec's re-parse of the tabular text)

The source only writes CSV; the round-trip property of the spec reads the
produced text back.  `parseCsv` is the standard reading of the `excel`
dialect: fields separated by commas, records terminated by CR LF, quoted
fields with doubled quote characters. -/

/-- How a field ended: at a delimiter, at a record terminator, or at the
end of the text. -/
inductive FEnd where
  | comma
  | newline
  | eofEnd
deriving DecidableEq, Repr

/-- Read the rest of a quoted field, the opening quote already consumed:
a doubled quote is a literal quote, the closing quote must be followed by
a delimiter, a record terminator or the end of the text. -/
def parseQuotedTail : List Char → Option (List Char × FEnd × List Char)
  | [] => none
  | c :: rest =>
    if c = '"' then
      if rest = [] then some ([], .eofEnd, [])
      else if rest.head? = some '"' then
        (parseQuotedTail rest.tail).map (fun r => ('"' :: r.1, r.2.1, r.2.2))
      else if rest.head? = some ',' then some ([], .comma, rest.tail)
      else if rest.head? = some '\r' ∧ rest.tail.head? = some '\n' then
        some ([], .newline, rest.tail.tail)
      else none
    else (parseQuotedTail rest).map (fun r => (c :: r.1, r.2.1, r.2.2))
  termination_by s => s.length
  decreasing_by
  · simp [List.length_tail]
    omega
  · simp

/-- Read an unquoted field: everything up to a delimiter or a record
terminator. -/
def parseUnquoted : List Char → List Char × FEnd × List Char
  | [] => ([], .eofEnd, [])
  | c :: rest =>
    if c = ',' then ([], .comma, rest)
    else if c = '\r' then
      if rest.head? = some '\n' then ([], .newline, rest.tail) else ([], .newline, rest)
    else if c = '\n' then ([], .newline, rest)
    else
      let r := parseUnquoted rest
      (c :: r.1, r.2.1, r.2.2)

/-- Read one field: quoted if it opens with the quote character. -/
def parseField (s : List Char) : Option (List Char × FEnd × List Char) :=
  match s with
  | [] => some ([], .eofEnd, [])
  | c :: rest => if c = '"' then parseQuotedTail rest else some (parseUnquoted (c :: rest))

/-- Read the fields of one record; the fuel bounds the number of fields. -/
def parseRecordGo : Nat → List Char → Option (List (List Char) × List Char)
  | 0, _ => none
  | Nat.succ fuel, s =>
    match parseField s with
    | none => none
    | some (f, .comma, rest) => (parseRecordGo fuel rest).map (fun r => (f :: r.1, r.2))
    | some (f, _, rest) => some ([f], rest)

/-- Read all records; the fuel bounds the number of records (a record
always consumes at least one character, its terminator included). -/
def parseRecordsGo : Nat → List Char → Option (List (List (List Char)))
  | 0, _ => none
  | Nat.succ _, [] => some []
  | Nat.succ fuel, c :: t =>
    match parseRecordGo (t.length + 2) (c :: t) with
    | none => none
    | some (row, rest) => (parseRecordsGo fuel rest).map (fun rs => row :: rs)

/-- Read a whole CSV text into its records (a record can never be shorter
than one character, so the text length bounds the record count). -/
def parseCsv (text : List Char) : Option (List (List String)) :=
  (parseRecordsGo (text.length + 1) text).map (fun rs => rs.map (fun r => r.map String.mk))

/-! ## Transport, retry and the pipeline driver (`main.py` 23-37) -/

/-- Observable steps of a run, in order: the two HTTP fetches, the fixed
back-off sleep (`sleep(10)`), the CSV serialization and the sink write. -/
inductive Ev where
  | fetchRegistry
  | fetchArchive
  | sleep10
  | serializeCsv
  | sinkPut
deriving DecidableEq, Repr

/-- What one transport attempt yields: a response, or a
`requests.RequestException`. -/
inductive TransportResult (α : Type) where
  | ok (a : α)
  | failure
deriving DecidableEq

/-- How a pipeline stage ends: a value, `sys.exit()` from a retry or
validation handler, or an uncaught exception.  Both non-`ok` ends stop the
run (`main.py`'s bare `except` only logs). -/
inductive Outcome (α : Type) where
  | ok (a : α)
  | exited
  | raised (e : PyErr)
deriving DecidableEq

/-- The fetched archive at the `ZipFile` interface: its listed entries,
and whether `ZipFile(...)`/`zf.testzip()` finds it corrupt
(`Utils.py` 78-81). -/
structure Archive where
  entries : List Entry
  integrityBad : Bool
deriving DecidableEq

/-- `get_latest_file` (`Utils.py` 17-60) with transport as an oracle
indexed by attempt number: a transport failure on the first attempt
sleeps and retries once; on the retry it calls `exit()`.  A successful
response is parsed and selected by `selectLatest`; a selection error
propagates as an uncaught exception. -/
def get_latest_file_run (oracle : Nat → TransportResult (List Doc)) :
    Bool → Nat → Outcome (Option String) × List Ev
  | retry, attempt =>
    match oracle attempt with
    | .failure =>
      if h : retry then (.exited, [.fetchRegistry])
      else
        let r := get_latest_file_run oracle true (attempt + 1)
        (r.1, .fetchRegistry :: .sleep10 :: r.2)
    | .ok docs =>
      (match selectLatest docs with
       | .ok t => .ok t
       | .error e => .raised e,
       [.fetchRegistry])
  termination_by retry _ => if retry then 0 else 1
  decreasing_by simp [*]

/-- `get_data` (`Utils.py` 63-110) with transport as an oracle: a
transport failure retries once then exits; a corrupt archive
(`testzip`/`BadZipFile`) exits without a retry; a sound archive goes
through `extractData`, whose exceptions propagate uncaught. -/
def get_data_run (te : List (String × String)) (oracle : Nat → TransportResult Archive) :
    Bool → Nat → Outcome (List Mapping × String) × List Ev
  | retry, attempt =>
    match oracle attempt with
    | .failure =>
      if h : retry then (.exited, [.fetchArchive])
      else
        let r := get_data_run te oracle true (attempt + 1)
        (r.1, .fetchArchive :: .sleep10 :: r.2)
    | .ok a =>
      if a.integrityBad then (.exited, [.fetchArchive])
      else
        (match extractData te a.entries with
         | .ok res => .ok res
         | .error e => .raised e,
         [.fetchArchive])
  termination_by retry _ => if retry then 0 else 1
  decreasing_by simp [*]

/-- Python truthiness of `if not target:` (`main.py` 25): `None` and the
empty string are falsy. -/
def pyFalsyStrOpt : Option String → Bool
  | none => true
  | some s => s.isEmpty

/-- `put_first_firds_file_in_s3` (`main.py` 23-37): select, fetch and
extract, then serialize and upload; a falsy target or an empty extraction
result returns early without an error. -/
def put_first_firds_file_in_s3 (te : List (String × String))
    (regOracle : Nat → TransportResult (List Doc))
    (arcOracle : Nat → TransportResult Archive) : Outcome Unit × List Ev :=
  let r1 := get_latest_file_run regOracle false 0
  match r1.1 with
  | .exited => (.exited, r1.2)
  | .raised e => (.raised e, r1.2)
  | .ok t =>
    if pyFalsyStrOpt t then (.ok (), r1.2)
    else
      let r2 := get_data_run te arcOracle false 0
      match r2.1 with
      | .exited => (.exited, r1.2 ++ r2.2)
      | .raised e => (.raised e, r1.2 ++ r2.2)
      | .ok (output, _) =>
        if output.isEmpty then (.ok (), r1.2 ++ r2.2)
        else (.ok (), r1.2 ++ r2.2 ++ [.serializeCsv, .sinkPut])

/-! ## Selection lemmas -/

theorem specFirstMin_fst_le (l : List (Nat × String)) (b : Nat × String) :
    (specFirstMin b l).1 ≤ b.1 := by
  cases l with
  | nil => exact le_refl _
  | cons p rest =>
    simp only [specFirstMin]
    split
    · exact le_refl _
    · exact le_of_lt (Nat.lt_of_not_le (by assumption))

theorem specFirstMin_le_of_mem (l : List (Nat × String)) (b q : Nat × String)
    (hq : q ∈ l) : (specFirstMin b l).1 ≤ q.1 := by
  induction l generalizing b with
  | nil => cases hq
  | cons p rest ih =>
    have hlem : (specFirstMin b (p :: rest)).1 ≤ (specFirstMin p rest).1 := by
      simp only [specFirstMin]
      split
      · assumption
      · exact le_refl _
    rcases List.mem_cons.mp hq with h | h
    · subst h
      exact le_trans hlem (specFirstMin_fst_le rest q)
    · exact le_trans hlem (ih p h)

theorem specFirstMin_seed_le (l : List (Nat × String)) (b p : Nat × String)
    (h : b.1 ≤ p.1) :
    specFirstMin b l =
      if b.1 ≤ (specFirstMin p l).1 then b else specFirstMin p l := by
  cases l with
  | nil => simp only [specFirstMin, if_pos h]
  | cons q rest =>
    simp only [specFirstMin]
    by_cases hp : p.1 ≤ (specFirstMin q rest).1
    · rw [if_pos hp, if_pos (le_trans h hp), if_pos h]
    · rw [if_neg hp]

theorem specFirstMin_split (l : List (Nat × String)) (b : Nat × String) :
    ∃ pre post, b :: l = pre ++ specFirstMin b l :: post
      ∧ ∀ q ∈ pre, (specFirstMin b l).1 < q.1 := by
  induction l generalizing b with
  | nil => exact ⟨[], [], rfl, by simp⟩
  | cons p rest ih =>
    simp only [specFirstMin]
    by_cases hb : b.1 ≤ (specFirstMin p rest).1
    · rw [if_pos hb]
      exact ⟨[], p :: rest, rfl, by simp⟩
    · rw [if_neg hb]
      obtain ⟨pre, post, heq, hlt⟩ := ih p
      refine ⟨b :: pre, post, by rw [List.cons_append, ← heq], ?_⟩
      intro q hq
      rcases List.mem_cons.mp hq with h | h
      · subst h
        exact Nat.lt_of_not_le hb
      · exact hlt q h

theorem selectLoop_eq_spec (l : List Doc) (db : Nat) (tb : String)
    (hv : ∀ d ∈ l, (parseFileDate d.file_name).isSome) :
    selectLoop l (some db) (some tb) =
      .ok (some (specFirstMin (db, tb) (l.map toPair)).2) := by
  induction l generalizing db tb with
  | nil => simp [selectLoop, specFirstMin]
  | cons d rest ih =>
    obtain ⟨n, hn⟩ := Option.isSome_iff_exists.mp (hv d (List.mem_cons_self d rest))
    have hv' : ∀ d' ∈ rest, (parseFileDate d'.file_name).isSome :=
      fun d' hd' => hv d' (List.mem_cons_of_mem d hd')
    have htp : toPair d = (n, d.download_link) := by simp [toPair, hn]
    simp only [selectLoop, hn, List.map_cons, htp]
    by_cases hlt : n < db
    · have hcond : ltInf n (some db) = true := by simp [ltInf, hlt]
      rw [hcond, if_pos rfl, ih n d.download_link hv']
      have : ¬ (db, tb).1 ≤ (specFirstMin (n, d.download_link) (rest.map toPair)).1 := by
        have h1 := specFirstMin_fst_le (rest.map toPair) (n, d.download_link)
        simp only [not_le]
        exact lt_of_le_of_lt h1 hlt
      simp only [specFirstMin, if_neg this]
    · have hcond : ltInf n (some db) = false := by simp [ltInf, hlt]
      rw [hcond]
      simp only [Bool.false_eq_true, if_false]
      rw [ih db tb hv']
      have hle : (db, tb).1 ≤ (n, d.download_link).1 := Nat.le_of_not_lt hlt
      rw [specFirstMin_seed_le (rest.map toPair) (db, tb) (n, d.download_link) hle]
      simp only [specFirstMin]

/-- C3: for a feed document with at least one entry, all of whose entries
have filenames matching the grammar, `get_latest_file`'s selection returns
the download link of the entry whose date token is the numeric minimum
across all entries, and an entry of minimal date strictly earlier in
document order than every other minimal entry is the one selected: the
selected pair is minimal among all (date, link) pairs, and every pair
strictly before it in document order has a strictly larger date. -/
theorem selectLatest_picks_first_min (d0 : Doc) (rest : List Doc)
    (hv : ∀ d ∈ d0 :: rest, (parseFileDate d.file_name).isSome) :
    selectLatest (d0 :: rest) =
      .ok (some (specFirstMin (toPair d0) (rest.map toPair)).2)
    ∧ (∀ q ∈ (d0 :: rest).map toPair, (specFirstMin (toPair d0) (rest.map toPair)).1 ≤ q.1)
    ∧ ∃ pre post, (d0 :: rest).map toPair
        = pre ++ specFirstMin (toPair d0) (rest.map toPair) :: post
        ∧ ∀ q ∈ pre, (specFirstMin (toPair d0) (rest.map toPair)).1 < q.1 := by
  obtain ⟨n, hn⟩ := Option.isSome_iff_exists.mp (hv d0 (List.mem_cons_self d0 rest))
  have hv' : ∀ d' ∈ rest, (parseFileDate d'.file_name).isSome :=
    fun d' hd' => hv d' (List.mem_cons_of_mem d0 hd')
  have htp : toPair d0 = (n, d0.download_link) := by simp [toPair, hn]
  refine ⟨?_, ?_, ?_⟩
  · show selectLoop (d0 :: rest) none none = _
    simp only [selectLoop, hn, ltInf]
    rw [selectLoop_eq_spec rest n d0.download_link hv', htp]
    simp
  · intro q hq
    rw [List.map_cons] at hq
    rcases List.mem_cons.mp hq with h | h
    · subst h
      exact specFirstMin_fst_le _ _
    · exact specFirstMin_le_of_mem _ _ _ h
  · rw [List.map_cons]
    exact specFirstMin_split (rest.map toPair) (toPair d0)

/-- C3 witness: the spec's own scenario — dates `20230102` and `20230101`;
the entry with the numerically smaller date `20230101` is selected. -/
theorem selectLatest_picks_first_min_witness :
    selectLatest [⟨"DLTINS_20230102_a.zip", "L2"⟩, ⟨"DLTINS_20230101_b.zip", "L1"⟩]
      = .ok (some "L1") :=
  (selectLatest_picks_first_min ⟨"DLTINS_20230102_a.zip", "L2"⟩
    [⟨"DLTINS_20230101_b.zip", "L1"⟩] (by decide)).1

theorem selectLoop_error_iff (l : List Doc) (mdb : Option Nat) (tgt : Option String) :
    (∃ e, selectLoop l mdb tgt = .error e) ↔
      ∃ d ∈ l, parseFileDate d.file_name = none := by
  induction l generalizing mdb tgt with
  | nil => simp [selectLoop]
  | cons d rest ih =>
    cases hp : parseFileDate d.file_name with
    | none =>
      simp only [selectLoop, hp]
      constructor
      · intro _
        exact ⟨d, List.mem_cons_self d rest, hp⟩
      · intro _
        exact ⟨.malformedEntry, rfl⟩
    | some n =>
      simp only [selectLoop, hp]
      constructor
      · intro h
        have h' : ∃ d' ∈ rest, parseFileDate d'.file_name = none := by
          by_cases hc : ltInf n mdb = true
          · rw [if_pos hc] at h
            exact (ih (some n) (some d.download_link)).mp h
          · rw [if_neg hc] at h
            exact (ih mdb tgt).mp h
        obtain ⟨d', hd', hpd'⟩ := h'
        exact ⟨d', List.mem_cons_of_mem d hd', hpd'⟩
      · intro h
        obtain ⟨d', hd', hpd'⟩ := h
        rcases List.mem_cons.mp hd' with heq | hmem
        · rw [← heq] at hp
          rw [hp] at hpd'
          cases hpd'
        · by_cases hc : ltInf n mdb = true
          · rw [if_pos hc]
            exact (ih (some n) (some d.download_link)).mpr ⟨d', hmem, hpd'⟩
          · rw [if_neg hc]
            exact (ih mdb tgt).mpr ⟨d', hmem, hpd'⟩

/-- C5 counterexample: a feed whose first entry fails the filename grammar
while its sibling matches it (with date `20230101`); the selection of the
whole feed raises instead of returning the sibling's link, so a
non-matching entry does prevent a matching sibling from being selected. -/
theorem selectLatest_bad_entry_aborts_selection :
    selectLatest [⟨"garbage.zip", "L0"⟩, ⟨"DLTINS_20230101_b.zip", "L1"⟩]
        = .error .malformedEntry
      ∧ parseFileDate "DLTINS_20230101_b.zip" = some 20230101 :=
  ⟨rfl, rfl⟩

/-- C5 amended: an entry whose filename does not match the grammar
`DLTINS_<date>_<suffix>.zip` is fatal to the whole selection, not only to
that entry: the selection raises exactly when at least one entry fails
the grammar, so one non-matching entry prevents every sibling from being
selected. -/
theorem selectLatest_error_iff_bad_entry (docs : List Doc) :
    (∃ e, selectLatest docs = .error e) ↔
      ∃ d ∈ docs, parseFileDate d.file_name = none :=
  selectLoop_error_iff docs none none

/-! ## Pipeline trace theorems -/

/-- C8: a feed document with zero entries makes `get_latest_file` return
`None`, not an error, and the caller returns early and successfully: the
run performs only the registry fetch — no archive fetch, no
serialization, no sink write — and ends in the `ok` outcome. -/
theorem empty_feed_early_success (te : List (String × String))
    (regOracle : Nat → TransportResult (List Doc))
    (arcOracle : Nat → TransportResult Archive)
    (hr : regOracle 0 = .ok []) :
    selectLatest [] = .ok none
    ∧ put_first_firds_file_in_s3 te regOracle arcOracle = (.ok (), [.fetchRegistry])
    ∧ .fetchArchive ∉ (put_first_firds_file_in_s3 te regOracle arcOracle).2
    ∧ .serializeCsv ∉ (put_first_firds_file_in_s3 te regOracle arcOracle).2
    ∧ .sinkPut ∉ (put_first_firds_file_in_s3 te regOracle arcOracle).2 := by
  have h1 : get_latest_file_run regOracle false 0 = (.ok none, [.fetchRegistry]) := by
    rw [get_latest_file_run, hr]
    rfl
  have h2 : put_first_firds_file_in_s3 te regOracle arcOracle = (.ok (), [.fetchRegistry]) := by
    rw [put_first_firds_file_in_s3, h1]
    rfl
  refine ⟨rfl, h2, ?_, ?_, ?_⟩ <;> rw [h2] <;> simp

/-- C8 witness: the theorem at a concrete empty feed. -/
theorem empty_feed_early_success_witness :
    put_first_firds_file_in_s3 [("a", "pa")]
        (fun _ => .ok []) (fun _ => .failure) = (.ok (), [.fetchRegistry]) :=
  (empty_feed_early_success [("a", "pa")] (fun _ => .ok []) (fun _ => .failure) rfl).2.1

/-- C4: a transport failure on the registry fetch (or on the archive
fetch) sleeps the fixed back-off and retries exactly once; when the retry
fails too the run ends in the fatal `exit()` outcome, the failing fetch
appears exactly twice in the trace, and neither serialization nor the
sink write is ever reached. -/
theorem transport_failure_retry_once_then_fatal (te : List (String × String))
    (regOracle : Nat → TransportResult (List Doc))
    (arcOracle : Nat → TransportResult Archive)
    (feed : List Doc) (t : String) :
    (regOracle 0 = .failure → regOracle 1 = .failure →
      put_first_firds_file_in_s3 te regOracle arcOracle
          = (.exited, [.fetchRegistry, .sleep10, .fetchRegistry])
        ∧ (put_first_firds_file_in_s3 te regOracle arcOracle).2.count .fetchRegistry = 2
        ∧ .serializeCsv ∉ (put_first_firds_file_in_s3 te regOracle arcOracle).2
        ∧ .sinkPut ∉ (put_first_firds_file_in_s3 te regOracle arcOracle).2)
    ∧ (regOracle 0 = .ok feed → selectLatest feed = .ok (some t) → t.isEmpty = false →
        arcOracle 0 = .failure → arcOracle 1 = .failure →
      put_first_firds_file_in_s3 te regOracle arcOracle
          = (.exited, [.fetchRegistry, .fetchArchive, .sleep10, .fetchArchive])
        ∧ (put_first_firds_file_in_s3 te regOracle arcOracle).2.count .fetchArchive = 2
        ∧ .serializeCsv ∉ (put_first_firds_file_in_s3 te regOracle arcOracle).2
        ∧ .sinkPut ∉ (put_first_firds_file_in_s3 te regOracle arcOracle).2) := by
  constructor
  · intro hr0 hr1
    have hrun1 : get_latest_file_run regOracle true 1 = (.exited, [.fetchRegistry]) := by
      rw [get_latest_file_run, hr1]
      rfl
    have hrun0 : get_latest_file_run regOracle false 0
        = (.exited, [.fetchRegistry, .sleep10, .fetchRegistry]) := by
      rw [get_latest_file_run, hr0]
      simp only [hrun1]
      rfl
    have h2 : put_first_firds_file_in_s3 te regOracle arcOracle
        = (.exited, [.fetchRegistry, .sleep10, .fetchRegistry]) := by
      rw [put_first_firds_file_in_s3, hrun0]
    refine ⟨h2, ?_, ?_, ?_⟩ <;> rw [h2] <;> simp [List.count_cons]
  · intro hr0 hsel ht ha0 ha1
    have hrun0 : get_latest_file_run regOracle false 0 = (.ok (some t), [.fetchRegistry]) := by
      rw [get_latest_file_run, hr0]
      simp only [hsel]
    have harc1 : get_data_run te arcOracle true 1 = (.exited, [.fetchArchive]) := by
      rw [get_data_run, ha1]
      rfl
    have harc0 : get_data_run te arcOracle false 0
        = (.exited, [.fetchArchive, .sleep10, .fetchArchive]) := by
      rw [get_data_run, ha0]
      simp only [harc1]
      rfl
    have h2 : put_first_firds_file_in_s3 te regOracle arcOracle
        = (.exited, [.fetchRegistry, .fetchArchive, .sleep10, .fetchArchive]) := by
      rw [put_first_firds_file_in_s3, hrun0]
      simp only [pyFalsyStrOpt, ht, Bool.false_eq_true, if_false, harc0]
      rfl
    refine ⟨h2, ?_, ?_, ?_⟩ <;> rw [h2] <;> simp [List.count_cons]

/-- C4 witness: the theorem at concrete oracles — a registry transport
that always fails, and a working registry with an archive transport that
always fails. -/
theorem transport_failure_retry_once_then_fatal_witness :
    (put_first_firds_file_in_s3 [("a", "pa")] (fun _ => .failure) (fun _ => .failure)
        = (.exited, [.fetchRegistry, .sleep10, .fetchRegistry]))
    ∧ (put_first_firds_file_in_s3 [("a", "pa")]
          (fun _ => .ok [⟨"DLTINS_20230101_x.zip", "L"⟩]) (fun _ => .failure)
        = (.exited, [.fetchRegistry, .fetchArchive, .sleep10, .fetchArchive])) :=
  ⟨((transport_failure_retry_once_then_fatal [("a", "pa")]
      (fun _ => .failure) (fun _ => .failure) [] "L").1 rfl rfl).1,
   ((transport_failure_retry_once_then_fatal [("a", "pa")]
      (fun _ => .ok [⟨"DLTINS_20230101_x.zip", "L"⟩]) (fun _ => .failure)
      [⟨"DLTINS_20230101_x.zip", "L"⟩] "L").2 rfl rfl rfl rfl rfl).1⟩

/-- C7: after a successful transport response the archive integrity test
runs; a corrupt archive ends the run fatally at once — the archive fetch
appears exactly once in the trace (no retry for an integrity failure) and
neither serialization nor the sink write is reached. -/
theorem integrity_failure_fatal_no_retry (te : List (String × String))
    (regOracle : Nat → TransportResult (List Doc))
    (arcOracle : Nat → TransportResult Archive)
    (feed : List Doc) (t : String) (a : Archive)
    (hr0 : regOracle 0 = .ok feed) (hsel : selectLatest feed = .ok (some t))
    (ht : t.isEmpty = false)
    (ha0 : arcOracle 0 = .ok a) (hbad : a.integrityBad = true) :
    put_first_firds_file_in_s3 te regOracle arcOracle
        = (.exited, [.fetchRegistry, .fetchArchive])
    ∧ (put_first_firds_file_in_s3 te regOracle arcOracle).2.count .fetchArchive = 1
    ∧ .serializeCsv ∉ (put_first_firds_file_in_s3 te regOracle arcOracle).2
    ∧ .sinkPut ∉ (put_first_firds_file_in_s3 te regOracle arcOracle).2 := by
  have hrun0 : get_latest_file_run regOracle false 0 = (.ok (some t), [.fetchRegistry]) := by
    rw [get_latest_file_run, hr0]
    simp only [hsel]
  have harc0 : get_data_run te arcOracle false 0 = (.exited, [.fetchArchive]) := by
    rw [get_data_run, ha0]
    simp only [hbad]
    rfl
  have h2 : put_first_firds_file_in_s3 te regOracle arcOracle
      = (.exited, [.fetchRegistry, .fetchArchive]) := by
    rw [put_first_firds_file_in_s3, hrun0]
    simp only [pyFalsyStrOpt, ht, Bool.false_eq_true, if_false, harc0]
    rfl
  refine ⟨h2, ?_, ?_, ?_⟩ <;> rw [h2] <;> simp [List.count_cons]

/-- C7 witness: the theorem at a concrete corrupt archive. -/
theorem integrity_failure_fatal_no_retry_witness :
    put_first_firds_file_in_s3 [("a", "pa")]
        (fun _ => .ok [⟨"DLTINS_20230101_x.zip", "L"⟩])
        (fun _ => .ok ⟨[], true⟩)
      = (.exited, [.fetchRegistry, .fetchArchive]) :=
  (integrity_failure_fatal_no_retry [("a", "pa")]
    (fun _ => .ok [⟨"DLTINS_20230101_x.zip", "L"⟩]) (fun _ => .ok ⟨[], true⟩)
    [⟨"DLTINS_20230101_x.zip", "L"⟩] "L" ⟨[], true⟩
    rfl rfl rfl rfl rfl).1

/-! ## Extraction theorems -/

/-- C1 counterexample: a configured target element whose path is not
found in the fragment does not yield a `None`-valued field — the
projection raises `AttributeError` (`None.text`) instead of producing a
mapping. -/
theorem projectFragment_missing_path_raises :
    projectFragment [("a", "p")] ([] : Fragment) = .error .attributeError := rfl

/-- C1 amended: when every configured path is found in the fragment, the
projection produces a mapping whose key list is exactly the configured
target-element list (in order), each field holding the found element's
text — `none` exactly when the element is empty; a path that is not found
in the fragment raises instead of mapping to `None`
(see the counterexample). -/
theorem projectFragment_keys_of_all_paths_found (te : List (String × String))
    (f : Fragment) (h : ∀ p ∈ te, (List.lookup p.2 f).isSome) :
    projectFragment te f = .ok (te.map (fun p => (p.1, (List.lookup p.2 f).join)))
    ∧ (te.map (fun p => (p.1, (List.lookup p.2 f).join))).map Prod.fst
        = te.map Prod.fst := by
  refine ⟨?_, by simp⟩
  induction te with
  | nil => rfl
  | cons p rest ih =>
    obtain ⟨t, ht⟩ := Option.isSome_iff_exists.mp (h p (List.mem_cons_self p rest))
    have h' : ∀ q ∈ rest, (List.lookup q.2 f).isSome :=
      fun q hq => h q (List.mem_cons_of_mem p hq)
    obtain ⟨p1, p2⟩ := p
    simp only [projectFragment, projectField, ht, ih h', List.map_cons, Option.join]
    rfl

/-- C1 witness: a fragment holding both configured paths, one element
with text and one empty; the projection succeeds, keys are exactly the
configured names, and the empty element's field is `none`. -/
theorem projectFragment_keys_of_all_paths_found_witness :
    projectFragment [("a", "pa"), ("b", "pb")]
        ([("pa", some "x"), ("pb", none)] : Fragment)
      = .ok [("a", some "x"), ("b", none)] :=
  (projectFragment_keys_of_all_paths_found [("a", "pa"), ("b", "pb")]
    ([("pa", some "x"), ("pb", none)] : Fragment) (by decide)).1

theorem popParseLoop_error_of_malformed (te : List (String × String))
    (rs : List RawFragment) (out : List Mapping) (hm : .malformed ∈ rs) :
    ∃ e, popParseLoop te rs out = .error e := by
  induction rs generalizing out with
  | nil => cases hm
  | cons r rest ih =>
    cases r with
    | malformed => exact ⟨.parseError, rfl⟩
    | wellFormed f =>
      have hm' : RawFragment.malformed ∈ rest := by
        rcases List.mem_cons.mp hm with h | h
        · cases h
        · exact h
      simp only [popParseLoop]
      cases hpf : projectFragment te f with
      | error e => exact ⟨e, rfl⟩
      | ok m => exact ih (out ++ [m]) hm'

/-- C2 counterexample: an archive entry holding one well-formed fragment
(both configured paths present) and one malformed fragment; extraction
does not yield one mapping — it aborts with the fragment parse error and
yields no mapping list at all. -/
theorem extractData_malformed_not_skipped :
    extractData [("a", "pa")]
        [⟨"f.xml", [.wellFormed [("pa", some "1")], .malformed]⟩]
      = .error .parseError := rfl

/-- C2 amended: a malformed fragment is not skipped: whenever any entry of
the archive holds a malformed fragment, the whole extraction raises (the
`while records:` loop has no handler), so an entry with K well-formed
fragments and one malformed fragment produces an error, not K mappings. -/
theorem extractData_error_of_malformed (te : List (String × String))
    (entries : List Entry) (en : Entry) (hen : en ∈ entries)
    (hm : .malformed ∈ en.fragments) :
    ∃ e, extractData te entries = .error e := by
  have key : ∀ (l : List Entry) (out : List Mapping) (last : Option String),
      en ∈ l → ∃ e, entriesLoop te l out last = .error e := by
    intro l
    induction l with
    | nil => intro _ _ h; cases h
    | cons e0 rest ih =>
      intro out last h
      rcases List.mem_cons.mp h with heq | hmem
      · obtain ⟨e, he⟩ := popParseLoop_error_of_malformed te en.fragments.reverse out
          (by simpa using hm)
        refine ⟨e, ?_⟩
        simp only [entriesLoop, ← heq, processEntry, he]
      · simp only [entriesLoop, processEntry]
        cases hpe : popParseLoop te e0.fragments.reverse out with
        | error e => exact ⟨e, rfl⟩
        | ok out2 => exact ih out2 (some e0.filename) hmem
  exact key entries [] none hen

/-- C2 witness: the amended theorem at a concrete archive entry with a
malformed fragment. -/
theorem extractData_error_of_malformed_witness :
    ∃ e, extractData [("a", "pa")] [⟨"g.xml", [.malformed]⟩] = .error e :=
  extractData_error_of_malformed [("a", "pa")] [⟨"g.xml", [.malformed]⟩]
    ⟨"g.xml", [.malformed]⟩ (List.mem_singleton.mpr rfl) (List.mem_singleton.mpr rfl)

theorem entriesLoop_ok_last (te : List (String × String)) (l : List Entry)
    (out : List Mapping) (last : Option String) (ms : List Mapping) (name : String)
    (h : entriesLoop te l out last = .ok (ms, name)) :
    (l.getLast?.map Entry.filename).getD (last.getD "") = name := by
  induction l generalizing out last with
  | nil =>
    cases last with
    | none => cases h
    | some fn =>
      simp only [entriesLoop] at h
      cases h
      rfl
  | cons e0 rest ih =>
    simp only [entriesLoop, processEntry] at h
    cases hpe : popParseLoop te e0.fragments.reverse out with
    | error e =>
      rw [hpe] at h
      cases h
    | ok out2 =>
      rw [hpe] at h
      have := ih out2 (some e0.filename) h
      cases rest with
      | nil => simpa using this
      | cons e1 rest' => simpa [List.getLast?_cons_cons] using this

/-- C9: whenever extraction succeeds, the returned artifact name is the
filename of the last archive entry in the archive's listed order (the
`for` loop variable `file` after the loop), also when the archive has
several entries. -/
theorem extractData_carries_last_entry_filename (te : List (String × String))
    (entries : List Entry) (ms : List Mapping) (name : String)
    (h : extractData te entries = .ok (ms, name)) :
    entries.getLast?.map Entry.filename = some name := by
  have hlast := entriesLoop_ok_last te entries [] none ms name h
  cases entries with
  | nil => cases h
  | cons e0 rest =>
    rw [List.getLast?_eq_getLast (e0 :: rest) (by simp)] at hlast ⊢
    simp only [Option.map_some', Option.getD_some, Option.getD_none] at hlast
    simp only [Option.map_some', hlast]

/-- C9 witness: a two-entry archive; the name carried out is the second
entry's filename. -/
theorem extractData_carries_last_entry_filename_witness :
    (([⟨"f1.xml", [.wellFormed [("pa", some "1"), ("pb", none)]]⟩,
       ⟨"f2.xml", [.wellFormed [("pa", some "2"), ("pb", some "3")]]⟩] :
        List Entry).getLast?.map Entry.filename) = some "f2.xml" :=
  extractData_carries_last_entry_filename [("a", "pa"), ("b", "pb")]
    [⟨"f1.xml", [.wellFormed [("pa", some "1"), ("pb", none)]]⟩,
     ⟨"f2.xml", [.wellFormed [("pa", some "2"), ("pb", some "3")]]⟩]
    [[("a", some "1"), ("b", none)], [("a", some "2"), ("b", some "3")]]
    "f2.xml" rfl

/-! ## Serialization theorems -/

theorem dictWriterRow_ok (fieldnames : List String) (m : Mapping)
    (h : ∀ kv ∈ m, kv.1 ∈ fieldnames) :
    dictWriterRow fieldnames m = .ok (rowCells fieldnames m) := by
  have hany : m.any (fun kv => !(fieldnames.contains kv.1)) = false := by
    rw [List.any_eq_false]
    intro kv hkv
    simp [List.elem_iff, h kv hkv]
  rw [dictWriterRow, hany]
  rfl

theorem writeRowsRev_map (fieldnames : List String) (l : List Mapping)
    (h : ∀ m ∈ l, m.map Prod.fst = fieldnames) :
    writeRowsRev fieldnames l = l.map (rowCells fieldnames) := by
  induction l with
  | nil => rfl
  | cons m rest ih =>
    have hk : ∀ kv ∈ m, kv.1 ∈ fieldnames := by
      intro kv hkv
      rw [← h m (List.mem_cons_self m rest)]
      exact List.mem_map_of_mem Prod.fst hkv
    rw [writeRowsRev, dictWriterRow_ok fieldnames m hk,
      ih (fun m' hm' => h m' (List.mem_cons_of_mem m hm')), List.map_cons]

/-- C10: `write_to_csv` consumes its argument destructively and in
reverse: the `pop()` loop leaves the input list empty, and the data rows
are the input mappings' cells back-to-front — the i-th data row comes
from the (n-1-i)-th input mapping. -/
theorem write_to_csv_destructive_reverse (te : List (String × String))
    (output : List Mapping)
    (h : ∀ m ∈ output, m.map Prod.fst = te.map Prod.fst) :
    (write_to_csv te output).2 = []
    ∧ csvRows te output
        = te.map Prod.fst :: output.reverse.map (rowCells (te.map Prod.fst))
    ∧ ∀ i, i < output.length →
        (output.reverse.map (rowCells (te.map Prod.fst)))[i]?
          = (output[output.length - 1 - i]?).map (rowCells (te.map Prod.fst)) := by
  refine ⟨rfl, ?_, ?_⟩
  · rw [csvRows, writeRowsRev_map (te.map Prod.fst) output.reverse
      (fun m hm => h m (List.mem_reverse.mp hm))]
  · intro i hi
    rw [List.getElem?_map, List.getElem?_reverse (by simpa using hi)]

/-- C10 witness: two mappings; the loop leaves the list empty and writes
the second mapping's row first. -/
theorem write_to_csv_destructive_reverse_witness :
    (write_to_csv [("a", "pa"), ("b", "pb")]
        [[("a", some "x"), ("b", none)], [("a", some ""), ("b", some "2")]]).2
      = ([] : List Mapping)
    ∧ csvRows [("a", "pa"), ("b", "pb")]
        [[("a", some "x"), ("b", none)], [("a", some ""), ("b", some "2")]]
      = [["a", "b"], ["", "2"], ["x", ""]] :=
  ⟨(write_to_csv_destructive_reverse [("a", "pa"), ("b", "pb")]
      [[("a", some "x"), ("b", none)], [("a", some ""), ("b", some "2")]]
      (by decide)).1,
   (write_to_csv_destructive_reverse [("a", "pa"), ("b", "pb")]
      [[("a", some "x"), ("b", none)], [("a", some ""), ("b", some "2")]]
      (by decide)).2.1⟩

/-! ## CSV round-trip lemmas

A field followed by its terminator reads back exactly; then records; then
whole texts.  `SepAfter tail fe r` says the text `tail` right after a
field is a well-formed terminator `fe` followed by the remaining text
`r`. -/

theorem parseQuotedTail_escape (f : List Char) (fe : FEnd) (tail r : List Char)
    (hsep : (tail = ',' :: r ∧ fe = .comma) ∨ (tail = '\r' :: '\n' :: r ∧ fe = .newline)) :
    parseQuotedTail (escapeQuotes f ++ '"' :: tail) = some (f, fe, r) := by
  induction f with
  | nil =>
    rcases hsep with ⟨ht, hfe⟩ | ⟨ht, hfe⟩ <;> subst ht <;> subst hfe <;>
      simp [escapeQuotes, parseQuotedTail]
  | cons c cs ih =>
    by_cases hc : c = '"'
    · subst hc
      simp only [escapeQuotes, if_pos rfl, List.cons_append]
      rw [parseQuotedTail.eq_def]
      simp [ih]
    · simp only [escapeQuotes, if_neg hc, List.cons_append]
      rw [parseQuotedTail.eq_def]
      simp [hc, ih]

theorem parseUnquoted_clean (f : List Char) (fe : FEnd) (tail r : List Char)
    (hf : ∀ c ∈ f, specialChar c = false)
    (hsep : (tail = ',' :: r ∧ fe = .comma) ∨ (tail = '\r' :: '\n' :: r ∧ fe = .newline)) :
    parseUnquoted (f ++ tail) = (f, fe, r) := by
  induction f with
  | nil =>
    rcases hsep with ⟨ht, hfe⟩ | ⟨ht, hfe⟩ <;> subst ht <;> subst hfe <;>
      simp [parseUnquoted]
  | cons c cs ih =>
    have hc := hf c (List.mem_cons_self c cs)
    simp only [specialChar, Bool.or_eq_false_iff, decide_eq_false_iff_not] at hc
    obtain ⟨⟨⟨hc1, _⟩, hc2⟩, hc3⟩ := hc
    simp only [List.cons_append]
    rw [parseUnquoted.eq_def]
    simp [hc1, hc2, hc3, ih (fun c' hc' => hf c' (List.mem_cons_of_mem c hc'))]

theorem parseField_render (single : Bool) (f : List Char) (fe : FEnd) (tail r : List Char)
    (hsep : (tail = ',' :: r ∧ fe = .comma) ∨ (tail = '\r' :: '\n' :: r ∧ fe = .newline)) :
    parseField (renderField single f ++ tail) = some (f, fe, r) := by
  rw [renderField]
  by_cases hq : (f.any specialChar || (single && f.isEmpty)) = true
  · rw [if_pos hq]
    simp only [List.cons_append, List.append_assoc, List.singleton_append]
    rw [parseField]
    simp [parseQuotedTail_escape f fe tail r hsep]
  · rw [if_neg hq]
    simp only [Bool.or_eq_true, not_or, Bool.and_eq_true, not_and] at hq
    obtain ⟨hany, _⟩ := hq
    have hf : ∀ c ∈ f, specialChar c = false := by
      intro c hc
      rcases hx : specialChar c with _ | _
      · rfl
      · exact absurd (List.any_eq_true.mpr ⟨c, hc, hx⟩) hany
    cases f with
    | nil =>
      rcases hsep with ⟨ht, hfe⟩ | ⟨ht, hfe⟩ <;> subst ht <;> subst hfe <;>
        simp [parseField, parseUnquoted]
    | cons c cs =>
      have hc := hf c (List.mem_cons_self c cs)
      simp only [specialChar, Bool.or_eq_false_iff, decide_eq_false_iff_not] at hc
      obtain ⟨⟨⟨_, hcq⟩, _⟩, _⟩ := hc
      simp only [List.cons_append]
      rw [parseField]
      simp only [if_neg hcq]
      rw [← List.cons_append, parseUnquoted_clean (c :: cs) fe tail r hf hsep]

theorem renderRowBody_cons_cons (f f2 : List Char) (fs : List (List Char)) :
    renderRowBody (f :: f2 :: fs) = renderField false f ++ ',' :: renderRowBody (f2 :: fs) :=
  rfl

theorem renderRow_single (f : List Char) :
    renderRow [f] = renderField true f ++ ['\r', '\n'] :=
  rfl

theorem renderRow_pair (f f2 : List Char) (fs : List (List Char)) :
    renderRow (f :: f2 :: fs) = renderRowBody (f :: f2 :: fs) ++ ['\r', '\n'] :=
  rfl

theorem parseRecordGo_body (f : List Char) (fs : List (List Char)) (fuel : Nat)
    (rest : List Char) (hfuel : (f :: fs).length ≤ fuel) :
    parseRecordGo fuel (renderRowBody (f :: fs) ++ '\r' :: '\n' :: rest)
      = some (f :: fs, rest) := by
  induction fs generalizing f fuel with
  | nil =>
    cases fuel with
    | zero => simp at hfuel
    | succ fuel =>
      rw [renderRowBody, parseRecordGo,
        parseField_render false f .newline ('\r' :: '\n' :: rest) rest (Or.inr ⟨rfl, rfl⟩)]
  | cons f2 fs3 ih =>
    cases fuel with
    | zero => simp at hfuel
    | succ fuel =>
      rw [renderRowBody_cons_cons]
      simp only [List.append_assoc, List.cons_append]
      rw [parseRecordGo,
        parseField_render false f .comma
          (',' :: (renderRowBody (f2 :: fs3) ++ '\r' :: '\n' :: rest))
          (renderRowBody (f2 :: fs3) ++ '\r' :: '\n' :: rest) (Or.inl ⟨rfl, rfl⟩)]
      have hfuel2 : (f2 :: fs3).length ≤ fuel := by
        simp only [List.length_cons] at hfuel ⊢
        omega
      show (parseRecordGo fuel (renderRowBody (f2 :: fs3) ++ '\r' :: '\n' :: rest)).map
          (fun r => (f :: r.1, r.2)) = some (f :: f2 :: fs3, rest)
      rw [ih f2 fuel hfuel2]
      rfl

theorem parseRecordGo_renderRow (row : List (List Char)) (fuel : Nat) (rest : List Char)
    (hfuel : row.length ≤ fuel) (hne : row ≠ []) :
    parseRecordGo fuel (renderRow row ++ rest) = some (row, rest) := by
  cases row with
  | nil => exact absurd rfl hne
  | cons f fs =>
    cases fs with
    | nil =>
      cases fuel with
      | zero => simp at hfuel
      | succ fuel =>
        rw [renderRow_single]
        simp only [List.append_assoc, List.cons_append, List.nil_append]
        rw [parseRecordGo,
          parseField_render true f .newline ('\r' :: '\n' :: rest) rest (Or.inr ⟨rfl, rfl⟩)]
    | cons f2 fs3 =>
      rw [renderRow_pair]
      simp only [List.append_assoc, List.cons_append, List.nil_append]
      exact parseRecordGo_body f (f2 :: fs3) fuel rest hfuel

theorem renderRowBody_length (fs : List (List Char)) :
    fs.length ≤ (renderRowBody fs).length + 1 := by
  induction fs with
  | nil => simp [renderRowBody]
  | cons f fs2 ih =>
    cases fs2 with
    | nil => simp [renderRowBody]
    | cons f2 fs3 =>
      rw [renderRowBody_cons_cons]
      simp only [List.length_cons, List.length_append] at ih ⊢
      omega

theorem renderRow_length (row : List (List Char)) :
    row.length ≤ (renderRow row).length ∧ 0 < (renderRow row).length := by
  cases row with
  | nil => simp [renderRow, renderRowBody]
  | cons f fs =>
    cases fs with
    | nil =>
      rw [renderRow_single]
      simp only [List.length_cons, List.length_append, List.length_nil]
      omega
    | cons f2 fs3 =>
      have h := renderRowBody_length (f :: f2 :: fs3)
      rw [renderRow_pair]
      simp only [List.length_cons, List.length_append] at h ⊢
      omega

theorem parseRecordsGo_render (rows : List (List (List Char))) (fuel : Nat)
    (hfuel : rows.length < fuel) (hrows : ∀ r ∈ rows, r ≠ []) :
    parseRecordsGo fuel ((rows.map renderRow).flatten) = some rows := by
  induction rows generalizing fuel with
  | nil =>
    cases fuel with
    | zero => simp at hfuel
    | succ fuel => simp [parseRecordsGo]
  | cons row rs ih =>
    cases fuel with
    | zero => simp at hfuel
    | succ fuel =>
      simp only [List.map_cons, List.flatten_cons]
      obtain ⟨c, t, hct⟩ : ∃ c t, renderRow row ++ (rs.map renderRow).flatten = c :: t := by
        cases hrw : renderRow row with
        | nil =>
          have := (renderRow_length row).2
          rw [hrw] at this
          simp at this
        | cons c t0 => exact ⟨c, t0 ++ (rs.map renderRow).flatten, by simp [hrw]⟩
      rw [hct, parseRecordsGo, ← hct]
      have hlen : row.length ≤ t.length + 2 := by
        have h1 := (renderRow_length row).1
        have h2 : (renderRow row ++ (rs.map renderRow).flatten).length = t.length + 1 := by
          rw [hct]
          rfl
        simp only [List.length_append] at h2
        omega
      rw [parseRecordGo_renderRow row (t.length + 2) ((rs.map renderRow).flatten) hlen
        (hrows row (List.mem_cons_self row rs))]
      show (parseRecordsGo fuel ((rs.map renderRow).flatten)).map
          (fun rs => row :: rs) = some (row :: rs)
      rw [ih fuel (by simpa using Nat.lt_of_succ_lt_succ hfuel)
        (fun r hr => hrows r (List.mem_cons_of_mem row hr))]
      rfl

theorem length_le_flatten_renderRow (rows : List (List (List Char))) :
    rows.length ≤ ((rows.map renderRow).flatten).length := by
  induction rows with
  | nil => simp
  | cons row rs ih =>
    have := (renderRow_length row).2
    simp only [List.map_cons, List.flatten_cons, List.length_cons, List.length_append]
    omega

theorem parseCsv_renderCsv (rows : List (List String)) (hrows : ∀ r ∈ rows, r ≠ []) :
    parseCsv (renderCsv rows) = some rows := by
  have hmap : renderCsv rows
      = ((rows.map (fun r => r.map String.data)).map renderRow).flatten := by
    rw [renderCsv, List.map_map]
    rfl
  have hrows' : ∀ r ∈ rows.map (fun r => r.map String.data), r ≠ [] := by
    intro r hr
    obtain ⟨r0, hr0, hr0e⟩ := List.mem_map.mp hr
    rw [← hr0e]
    simpa using hrows r0 hr0
  have hlen : (rows.map (fun r => r.map String.data)).length < (renderCsv rows).length + 1 := by
    rw [hmap]
    have := length_le_flatten_renderRow (rows.map (fun r => r.map String.data))
    simp only [List.length_map] at this ⊢
    omega
  rw [parseCsv, hmap]
  rw [show ((rows.map (fun r => r.map String.data)).map renderRow).flatten.length
      = (renderCsv rows).length from by rw [hmap]]
  rw [parseRecordsGo_render (rows.map (fun r => r.map String.data))
    ((renderCsv rows).length + 1) (by simpa using hlen) hrows']
  simp only [Option.map_some']
  congr 1
  rw [List.map_map]
  have hcomp : ((fun rcd : List (List Char) => rcd.map String.mk)
      ∘ fun r : List String => r.map String.data) = id := by
    funext r
    simp only [Function.comp_apply, List.map_map]
    have hmkdata : (String.mk ∘ String.data) = id := funext fun s => rfl
    rw [hmkdata, List.map_id]
    rfl
  rw [hcomp, List.map_id]

/-- C6: serializing a sequence of mappings over the configured column set
and re-parsing the comma-separated text yields the header row followed by
exactly one data row per mapping (in reverse input order — the spec
requires no order), each data row's cells being the mapping's values with
`None` rendered as the empty string. -/
theorem write_to_csv_round_trip (te : List (String × String)) (ms : List Mapping)
    (hte : te ≠ []) (h : ∀ m ∈ ms, m.map Prod.fst = te.map Prod.fst) :
    parseCsv (write_to_csv te ms).1
      = some (te.map Prod.fst :: ms.reverse.map (rowCells (te.map Prod.fst)))
    ∧ (ms.reverse.map (rowCells (te.map Prod.fst))).length = ms.length
    ∧ ∀ m : Mapping, rowCells (te.map Prod.fst) m
        = te.map (fun p => ((List.lookup p.1 m).join).getD "") := by
  refine ⟨?_, by simp, ?_⟩
  · have hcsv : csvRows te ms
        = te.map Prod.fst :: ms.reverse.map (rowCells (te.map Prod.fst)) := by
      rw [csvRows, writeRowsRev_map _ _ (fun m hm => h m (List.mem_reverse.mp hm))]
    show parseCsv (renderCsv (csvRows te ms)) = _
    rw [hcsv]
    apply parseCsv_renderCsv
    intro r hr
    rcases List.mem_cons.mp hr with heq | hmem
    · rw [heq]
      simpa using hte
    · obtain ⟨m, _, hmr⟩ := List.mem_map.mp hmem
      rw [← hmr, rowCells]
      simpa using hte
  · intro m
    rw [rowCells, List.map_map]
    apply List.map_congr_left
    intro p _
    cases hl : List.lookup p.1 m with
    | none =>
      simp only [Function.comp_apply]
      rw [hl]
      rfl
    | some v =>
      cases v with
      | none =>
        simp only [Function.comp_apply]
        rw [hl]
        rfl
      | some s =>
        simp only [Function.comp_apply]
        rw [hl]
        rfl

/-- C6 witness: two mappings over a two-column configuration, one value
holding the delimiter and a quote, one `None`, one empty string; the
re-parse returns the header and both rows with `None` as the empty
string. -/
theorem write_to_csv_round_trip_witness :
    parseCsv (write_to_csv [("a", "pa"), ("b", "pb")]
        [[("a", some "x,\"y"), ("b", none)], [("a", some "plain"), ("b", some "")]]).1
      = some [["a", "b"], ["plain", ""], ["x,\"y", ""]] :=
  (write_to_csv_round_trip [("a", "pa"), ("b", "pb")]
    [[("a", some "x,\"y"), ("b", none)], [("a", some "plain"), ("b", some "")]]
    (by decide) (by decide)).1

end Firds
